import Mathlib

/-
Verification of the core engine of `alphagenome_sv_expression_scan.py`:
the indel aligner (`align_reference_for_indel`), the sliding-window
divergence scorer (`compute_window_scores`), the region caller
(`call_regions`), and the per-channel result-row emission in `main`.

Modelling conventions:
* IEEE floating-point values are embedded as `Option ℚ`, where `none`
  models the not-a-number value (NaN).  Arithmetic on `Option ℚ`
  propagates `none` exactly as IEEE arithmetic propagates NaN, and
  ordered comparisons against `none` are false, as NaN comparisons are.
  Rounding is abstracted away: rational arithmetic is exact.
* numpy arrays are embedded as Lean lists or, for the 2-D signal
  matrices, as a structure carrying the two shape components and a
  total indexing function.
* numpy slice assignment `a[i:j] = ...` (which clamps out-of-range
  bounds and, for overlapping source and destination, reads the
  pre-assignment values) is embedded as the pure function `sliceAssign`.
-/

namespace AlphaScan

/-! ### NaN-aware scalar arithmetic (`none` = NaN) -/

def oadd (x y : Option ℚ) : Option ℚ :=
  match x, y with
  | some a, some b => some (a + b)
  | _, _ => none

def osub (x y : Option ℚ) : Option ℚ :=
  match x, y with
  | some a, some b => some (a - b)
  | _, _ => none

def odiv (x y : Option ℚ) : Option ℚ :=
  match x, y with
  | some a, some b => some (a / b)
  | _, _ => none

/-! ### Signal matrices

A `Mat` embeds a 2-D numpy float array of shape `(nBases, nTracks)`:
`val p c` is the sample at genomic offset `p` in channel (track) `c`.
-/

structure Mat where
  nBases : ℕ
  nTracks : ℕ
  val : ℕ → ℕ → Option ℚ

/-- Cumulative sum with a zero row prepended, as built by
`np.cumsum(np.vstack([np.zeros((1, n_tracks)), vals]), axis=0)`:
`cumsum M c k` is the sum of the first `k` samples of channel `c`. -/
def cumsum (M : Mat) (c : ℕ) : ℕ → Option ℚ
  | 0 => some 0
  | k + 1 => oadd (cumsum M c k) (M.val k c)

/-- One entry of the window-score array, exactly as `compute_window_scores`
computes it: `i` is the clipped scan start, window sums are differences of
cumulative sums at the window boundaries, both sums are divided by the
window size, and the score is `alt_mean / (ref_mean + epsilon) - 1`. -/
def windowScoreEntry (alt ref : Mat) (i w : ℕ) (epsilon : ℚ) (j c : ℕ) : Option ℚ :=
  let a := osub (cumsum alt c (i + w + j)) (cumsum alt c (i + j))
  let r := osub (cumsum ref c (i + w + j)) (cumsum ref c (i + j))
  let a2 := odiv a (some (w : ℚ))
  let r2 := odiv r (some (w : ℚ))
  osub (odiv a2 (oadd r2 (some epsilon))) (some 1)

/-- Embedding of `compute_window_scores(alt_vals, ref_vals, start_idx,
end_idx, window_size, epsilon)`.  The scan start is clipped up to `0`, the
scan end down to `n_bases`, the window count is
`end_idx - start_idx - window_size + 1`, and a nonpositive window count
yields the empty `(0, n_tracks)` array (whose entries are never read,
mirroring `np.empty`). -/
def compute_window_scores (altVals refVals : Mat) (startIdx endIdx : ℤ)
    (windowSize : ℕ) (epsilon : ℚ) : Mat :=
  let s := max startIdx 0
  let e := min endIdx (altVals.nBases : ℤ)
  let nw : ℤ := e - s - windowSize + 1
  if nw ≤ 0 then ⟨0, altVals.nTracks, fun _ _ => none⟩
  else ⟨nw.toNat, altVals.nTracks,
    fun j c => windowScoreEntry altVals refVals s.toNat windowSize epsilon j c⟩

/-- Direct sum of the `w` samples of channel `c` starting at offset `i`. -/
def windowSum (M : Mat) (c i : ℕ) : ℕ → Option ℚ
  | 0 => some 0
  | t + 1 => oadd (windowSum M c i t) (M.val (i + t) c)

/-- Specification-side definition for the refinement claim, following the
spec's words: per window, the score is
`windowed_alt_mean / (windowed_ref_mean + epsilon) - 1`, where each
windowed mean is the plain mean of the `w` samples of the window starting
at clipped start + `j`. -/
def naive_window_score (altVals refVals : Mat) (startIdx : ℤ)
    (windowSize : ℕ) (epsilon : ℚ) (j c : ℕ) : Option ℚ :=
  let i := (max startIdx 0).toNat
  let altMean := odiv (windowSum altVals c (i + j) windowSize) (some (windowSize : ℚ))
  let refMean := odiv (windowSum refVals c (i + j) windowSize) (some (windowSize : ℚ))
  osub (odiv altMean (oadd refMean (some epsilon))) (some 1)

/-! ### Region caller -/

/-- Whether one score passes the threshold test `np.abs(scores) > threshold`.
A NaN score never passes, since IEEE comparisons against NaN are false. -/
def hit (v : Option ℚ) (threshold : ℚ) : Bool :=
  match v with
  | some x => decide (threshold < |x|)
  | none => false

/-- Indices selected by `np.where(np.abs(scores) > threshold)[0]`. -/
def hitIdx (scores : List (Option ℚ)) (threshold : ℚ) : List ℕ :=
  (List.range scores.length).filter (fun i => hit (scores.getD i none) threshold)

/-- Compression of the selected indices into maximal consecutive runs:
the loop of `call_regions` with accumulator state `start`, `prev`. -/
def runsAux (start prev : ℕ) : List ℕ → List (ℕ × ℕ)
  | [] => [(start, prev)]
  | i :: rest =>
    if i = prev + 1 then runsAux start i rest
    else (start, prev) :: runsAux i i rest

/-- Runs of consecutive selected indices (`regions` in the source). -/
def runsOf : List ℕ → List (ℕ × ℕ)
  | [] => []
  | i :: rest => runsAux i i rest

/-- The merge-and-filter sweep of `call_regions` with running region
`(cs, ce)`: a following run `(s, e)` is merged when `s - cur_e ≤
merge_distance`; when the running region is closed it is kept only if its
length `cur_e - cur_s + 1` is at least `min_length`. -/
def mergeAux (mergeDistance minLength : ℕ) (cs ce : ℕ) : List (ℕ × ℕ) → List (ℕ × ℕ)
  | [] => if minLength ≤ ce - cs + 1 then [(cs, ce)] else []
  | (s, e) :: rest =>
    if s - ce ≤ mergeDistance then mergeAux mergeDistance minLength cs e rest
    else if minLength ≤ ce - cs + 1 then (cs, ce) :: mergeAux mergeDistance minLength s e rest
    else mergeAux mergeDistance minLength s e rest

/-- The merge/filter stage applied to a run list (first run seeds the
running region). -/
def mergeFilter (mergeDistance minLength : ℕ) : List (ℕ × ℕ) → List (ℕ × ℕ)
  | [] => []
  | (s, e) :: rest => mergeAux mergeDistance minLength s e rest

/-- Embedding of `call_regions(scores, threshold, min_length,
merge_distance)`. -/
def call_regions (scores : List (Option ℚ)) (threshold : ℚ)
    (minLength mergeDistance : ℕ) : List (ℕ × ℕ) :=
  mergeFilter mergeDistance minLength (runsOf (hitIdx scores threshold))

/-- The merge sweep without the length filter (for stating that the
`min_length` filter acts only on closed, fully merged regions). -/
def mergeNFAux (mergeDistance : ℕ) (cs ce : ℕ) : List (ℕ × ℕ) → List (ℕ × ℕ)
  | [] => [(cs, ce)]
  | (s, e) :: rest =>
    if s - ce ≤ mergeDistance then mergeNFAux mergeDistance cs e rest
    else (cs, ce) :: mergeNFAux mergeDistance s e rest

/-- Merge sweep without the length filter, applied to a run list. -/
def mergeNF (mergeDistance : ℕ) : List (ℕ × ℕ) → List (ℕ × ℕ)
  | [] => []
  | (s, e) :: rest => mergeNFAux mergeDistance s e rest

/-! ### Indel aligner -/

/-- The paired model outputs: one reference and one alternate signal
array (rows of the 2-D arrays are abstracted to an arbitrary type `α`,
since the aligner moves and overwrites whole rows). -/
structure VariantOutput (α : Type) where
  reference : List α
  alternate : List α
  deriving Repr, DecidableEq

/-- Helper for `sliceAssign`: `p` is the index of the first element of the
remaining list. -/
def sliceAssignGo {α : Type} (i j : ℕ) (f : ℕ → α) : ℕ → List α → List α
  | _, [] => []
  | p, x :: xs => (if i ≤ p ∧ p < j then f p else x) :: sliceAssignGo i j f (p + 1) xs

/-- numpy slice assignment `xs[i:j] = [f i, f (i+1), ...]` as a pure
function: positions in `[i, j)` (and within bounds) receive `f p`, all
others keep their value.  Out-of-range parts of the slice are silently
clamped, as in Python. -/
def sliceAssign {α : Type} (xs : List α) (i j : ℕ) (f : ℕ → α) : List α :=
  sliceAssignGo i j f 0 xs

/-- Embedding of `align_reference_for_indel`.  `nanRow` is the all-NaN row
written by `values[...] = np.nan`; `m` is the mutation offset
`variant.position - interval.start`; `n` is the interval length
`interval.end - interval.start` (the number of rows); `d` is
`length_alter`.  For a deletion (`d > 0`) rows are shifted left by `d`
from offset `m` and the last `d` rows are overwritten with `nanRow`; for
an insertion (`d < 0`, `k = |d|`) rows are shifted right by `k` from
offset `m` and rows `[m, m+k)` are overwritten with `nanRow`; for a
substitution nothing happens.  The shift reads the pre-assignment rows,
as numpy does for overlapping slice assignments. -/
def alignedRefDel {α : Type} (nanRow : α) (ref : List α) (m n k : ℕ) : List α :=
  sliceAssign (sliceAssign ref m (n - k) (fun p => ref.getD (p + k) nanRow))
    (n - k) n (fun _ => nanRow)

def alignedRefIns {α : Type} (nanRow : α) (ref : List α) (m n k : ℕ) : List α :=
  sliceAssign (sliceAssign ref (m + k) n (fun p => ref.getD (p - k) nanRow))
    m (m + k) (fun _ => nanRow)

def align_reference_for_indel {α : Type} (nanRow : α) (vout : VariantOutput α)
    (m n : ℕ) (d : ℤ) : VariantOutput α :=
  if 0 < d then
    { reference := alignedRefDel nanRow vout.reference m n d.toNat,
      alternate := vout.alternate }
  else if d < 0 then
    { reference := alignedRefIns nanRow vout.reference m n (-d).toNat,
      alternate := vout.alternate }
  else vout

/-! ### Region classifier: per-channel result rows -/

/-- `np.nanmean`: mean of the non-NaN entries; NaN when all entries are NaN. -/
def nanmean (xs : List (Option ℚ)) : Option ℚ :=
  let v := xs.filterMap id
  if v.length = 0 then none else some (v.sum / (v.length : ℚ))

/-- `np.nanmax`: maximum of the non-NaN entries; NaN when all entries are NaN. -/
def nanmax (xs : List (Option ℚ)) : Option ℚ :=
  (xs.filterMap id).max?

/-- `np.nanmin`: minimum of the non-NaN entries; NaN when all entries are NaN. -/
def nanmin (xs : List (Option ℚ)) : Option ℚ :=
  (xs.filterMap id).min?

/-- `x > 0` under IEEE semantics: false when `x` is NaN. -/
def oposb (x : Option ℚ) : Bool :=
  match x with
  | some q => decide (0 < q)
  | none => false

/-- `x < 0` under IEEE semantics: false when `x` is NaN. -/
def onegb (x : Option ℚ) : Bool :=
  match x with
  | some q => decide (q < 0)
  | none => false

/-- One result row, restricted to the fields computed by the per-channel
emission loop in `main` (the constant mutation/context/channel identity
fields and the plot-file back-fill are omitted). -/
structure ResultRow where
  isSignificant : Bool
  nRegions : ℕ
  regionIndex : ℤ
  relStart : Option ℤ
  relEnd : Option ℤ
  absStart : Option ℤ
  absEnd : Option ℤ
  meanScore : Option ℚ
  maxScore : Option ℚ
  minScore : Option ℚ
  direction : String
  deriving Repr, DecidableEq

/-- The direction label of a significant region, from its not-a-number
aware mean/max/min. -/
def directionOf (m mx mn : Option ℚ) : String :=
  if oposb m && oposb mn then "up"
  else if onegb m && onegb mx then "down"
  else "mixed"

/-- The rows emitted by `main` for one (mutation, context, channel):
one row per region when regions were found, otherwise exactly one
non-significant row carrying whole-array statistics.  `startIdx`,
`centerIdx` and `pos` are the scan start offset, the variant's offset in
the interval, and the variant's genomic position. -/
def channelRows (scores : List (Option ℚ)) (threshold : ℚ)
    (minLength mergeDistance : ℕ) (startIdx centerIdx pos : ℤ)
    (windowSize : ℕ) : List ResultRow :=
  let regions := call_regions scores threshold minLength mergeDistance
  if regions.isEmpty then
    [{ isSignificant := false, nRegions := 0, regionIndex := -1,
       relStart := none, relEnd := none, absStart := none, absEnd := none,
       meanScore := nanmean scores, maxScore := nanmax scores,
       minScore := nanmin scores, direction := "none" }]
  else
    regions.enum.map (fun pr =>
      let rs : ℕ := pr.2.1
      let re : ℕ := pr.2.2
      let relS : ℤ := (startIdx + rs) - centerIdx
      let relE : ℤ := (startIdx + re + windowSize - 1) - centerIdx
      let seg := (scores.drop rs).take (re + 1 - rs)
      let m := nanmean seg
      let mx := nanmax seg
      let mn := nanmin seg
      { isSignificant := true, nRegions := regions.length,
        regionIndex := (pr.1 : ℤ),
        relStart := some relS, relEnd := some relE,
        absStart := some (pos + relS), absEnd := some (pos + relE),
        meanScore := m, maxScore := mx, minScore := mn,
        direction := directionOf m mx mn })

/-! ### Lemmas: NaN propagation through the option arithmetic -/

theorem oadd_none_left (y : Option ℚ) : oadd none y = none := by cases y <;> rfl

theorem oadd_none_right (x : Option ℚ) : oadd x none = none := by cases x <;> rfl

theorem osub_none_left (y : Option ℚ) : osub none y = none := by cases y <;> rfl

theorem osub_none_right (x : Option ℚ) : osub x none = none := by cases x <;> rfl

theorem odiv_none_left (y : Option ℚ) : odiv none y = none := by cases y <;> rfl

theorem odiv_none_right (x : Option ℚ) : odiv x none = none := by cases x <;> rfl

theorem cumsum_eq_none (M : Mat) (c p : ℕ) :
    ∀ k, p < k → M.val p c = none → cumsum M c k = none := by
  intro k
  induction k with
  | zero => intro h; omega
  | succ k ih =>
    intro hp hv
    by_cases h : p = k
    · rw [cumsum, ← h, hv, oadd_none_right]
    · rw [cumsum, ih (by omega) hv, oadd_none_left]

theorem cumsum_eq_some (M : Mat) (c : ℕ) (g : ℕ → ℚ) :
    ∀ k, (∀ p, p < k → M.val p c = some (g p)) →
      cumsum M c k = some (∑ p ∈ Finset.range k, g p) := by
  intro k
  induction k with
  | zero => intro _; simp [cumsum]
  | succ k ih =>
    intro h
    rw [cumsum, ih (fun p hp => h p (by omega)), h k (by omega)]
    rw [Finset.sum_range_succ]
    rfl

theorem osub_cumsum_eq_windowSum (M : Mat) (c : ℕ) (g : ℕ → ℚ) :
    ∀ (w i : ℕ), (∀ p, p < i + w → M.val p c = some (g p)) →
      osub (cumsum M c (i + w)) (cumsum M c i) = windowSum M c i w := by
  intro w
  induction w with
  | zero =>
    intro i h
    simp only [Nat.add_zero]
    rw [cumsum_eq_some M c g i (fun p hp => h p (by omega))]
    simp [windowSum, osub]
  | succ w ih =>
    intro i h
    have hlt : ∀ p, p < i + w → M.val p c = some (g p) := fun p hp => h p (by omega)
    have h1 : cumsum M c (i + (w + 1)) =
        oadd (cumsum M c (i + w)) (M.val (i + w) c) := by
      rw [show i + (w + 1) = (i + w) + 1 by omega, cumsum]
    rw [windowSum, ← ih i hlt, h1,
      cumsum_eq_some M c g (i + w) hlt,
      cumsum_eq_some M c g i (fun p hp => hlt p (by omega)),
      h (i + w) (by omega)]
    simp only [oadd, osub]
    congr 1
    ring

/-! ### Lemmas: the region caller's runs and merge sweep -/

theorem hitIdx_chain (scores : List (Option ℚ)) (threshold : ℚ) :
    List.Chain' (· < ·) (hitIdx scores threshold) :=
  ((List.pairwise_lt_range _).filter _).chain'

theorem runsAux_spec :
    ∀ (l : List ℕ) (start prev : ℕ), start ≤ prev →
      List.Chain' (· < ·) (prev :: l) →
      (∃ e t, runsAux start prev l = (start, e) :: t ∧ prev ≤ e) ∧
      List.Chain' (fun a b : ℕ × ℕ => a.2 + 2 ≤ b.1) (runsAux start prev l) ∧
      (∀ r ∈ runsAux start prev l, r.1 ≤ r.2) := by
  intro l
  induction l with
  | nil =>
    intro start prev hsp _
    refine ⟨⟨prev, [], rfl, le_rfl⟩, ?_, ?_⟩
    · exact List.chain'_singleton _
    · intro r hr
      simp only [runsAux, List.mem_singleton] at hr
      simp [hr, hsp]
  | cons i rest ih =>
    intro start prev hsp hchain
    rw [List.chain'_cons] at hchain
    obtain ⟨hpi, hchain2⟩ := hchain
    by_cases hcase : i = prev + 1
    · rw [runsAux, if_pos hcase]
      obtain ⟨⟨e, t, hsh, hie⟩, hc, hm⟩ := ih start i (by omega) hchain2
      exact ⟨⟨e, t, hsh, by omega⟩, hc, hm⟩
    · rw [runsAux, if_neg hcase]
      obtain ⟨⟨e, t, hsh, hie⟩, hc, hm⟩ := ih i i le_rfl hchain2
      refine ⟨⟨prev, runsAux i i rest, rfl, le_rfl⟩, ?_, ?_⟩
      · rw [hsh]
        rw [List.chain'_cons]
        refine ⟨by simp; omega, ?_⟩
        rw [← hsh]
        exact hc
      · intro r hr
        rcases List.mem_cons.mp hr with h | h
        · simp [h, hsp]
        · exact hm r h

theorem mergeAux_spec (md ml : ℕ) :
    ∀ (l : List (ℕ × ℕ)) (cs ce : ℕ), cs ≤ ce →
      List.Chain' (fun a b : ℕ × ℕ => a.2 + 2 ≤ b.1) ((cs, ce) :: l) →
      (∀ r ∈ l, r.1 ≤ r.2) →
      (∀ r ∈ mergeAux md ml cs ce l, cs ≤ r.1 ∧ r.1 ≤ r.2 ∧ ml ≤ r.2 - r.1 + 1) ∧
      List.Chain' (fun a b : ℕ × ℕ => a.2 + md + 1 ≤ b.1 ∧ a.2 + 2 ≤ b.1)
        (mergeAux md ml cs ce l) := by
  intro l
  induction l with
  | nil =>
    intro cs ce hcc _ _
    rw [mergeAux]
    by_cases hk : ml ≤ ce - cs + 1
    · rw [if_pos hk]
      refine ⟨?_, List.chain'_singleton _⟩
      intro r hr
      simp only [List.mem_singleton] at hr
      simp [hr, hcc, hk]
    · rw [if_neg hk]
      exact ⟨by simp, List.chain'_nil⟩
  | cons se rest ih =>
    obtain ⟨s, e⟩ := se
    intro cs ce hcc hchain hwf
    rw [List.chain'_cons] at hchain
    obtain ⟨hgap, hchain2⟩ := hchain
    simp only at hgap
    have hse : s ≤ e := hwf (s, e) (List.mem_cons_self _ _)
    have hwf2 : ∀ r ∈ rest, r.1 ≤ r.2 := fun r hr => hwf r (List.mem_cons_of_mem _ hr)
    rw [mergeAux]
    by_cases hm : s - ce ≤ md
    · rw [if_pos hm]
      have hchain3 : List.Chain' (fun a b : ℕ × ℕ => a.2 + 2 ≤ b.1) ((cs, e) :: rest) := by
        rw [List.chain'_cons'] at hchain2 ⊢
        exact ⟨hchain2.1, hchain2.2⟩
      exact ih cs e (by omega) hchain3 hwf2
    · rw [if_neg hm]
      have hs : ce + md + 1 ≤ s := by omega
      obtain ⟨ihm, ihc⟩ := ih s e hse hchain2 hwf2
      by_cases hk : ml ≤ ce - cs + 1
      · rw [if_pos hk]
        constructor
        · intro r hr
          rcases List.mem_cons.mp hr with h | h
          · simp [h, hcc, hk]
          · have := ihm r h
            exact ⟨by omega, this.2.1, this.2.2⟩
        · rw [List.chain'_cons']
          refine ⟨?_, ihc⟩
          intro y hy
          have hmem := List.mem_of_mem_head? hy
          have := ihm y hmem
          simp only
          omega
      · rw [if_neg hk]
        refine ⟨?_, ihc⟩
        intro r hr
        have := ihm r hr
        exact ⟨by omega, this.2.1, this.2.2⟩

theorem mergeAux_eq_filter (md ml : ℕ) :
    ∀ (l : List (ℕ × ℕ)) (cs ce : ℕ),
      mergeAux md ml cs ce l =
        (mergeNFAux md cs ce l).filter (fun r => decide (ml ≤ r.2 - r.1 + 1)) := by
  intro l
  induction l with
  | nil =>
    intro cs ce
    rw [mergeAux, mergeNFAux]
    by_cases hk : ml ≤ ce - cs + 1 <;> simp [List.filter, hk]
  | cons se rest ih =>
    obtain ⟨s, e⟩ := se
    intro cs ce
    rw [mergeAux, mergeNFAux]
    by_cases hm : s - ce ≤ md
    · rw [if_pos hm, if_pos hm, ih]
    · rw [if_neg hm, if_neg hm]
      by_cases hk : ml ≤ ce - cs + 1 <;> simp [List.filter, hk, ih]

theorem mergeNFAux_contains (md : ℕ) :
    ∀ (l : List (ℕ × ℕ)) (cs ce : ℕ), cs ≤ ce →
      List.Chain' (fun a b : ℕ × ℕ => a.2 + 2 ≤ b.1) ((cs, ce) :: l) →
      (∀ r ∈ l, r.1 ≤ r.2) →
      ∀ r ∈ (cs, ce) :: l, ∃ g ∈ mergeNFAux md cs ce l, g.1 ≤ r.1 ∧ r.2 ≤ g.2 := by
  intro l
  induction l with
  | nil =>
    intro cs ce _ _ _ r hr
    simp only [List.mem_singleton] at hr
    exact ⟨(cs, ce), by simp [mergeNFAux], by simp [hr]⟩
  | cons se rest ih =>
    obtain ⟨s, e⟩ := se
    intro cs ce hcc hchain hwf r hr
    rw [List.chain'_cons] at hchain
    obtain ⟨hgap, hchain2⟩ := hchain
    simp only at hgap
    have hse : s ≤ e := hwf (s, e) (List.mem_cons_self _ _)
    have hwf2 : ∀ x ∈ rest, x.1 ≤ x.2 := fun x hx => hwf x (List.mem_cons_of_mem _ hx)
    rw [mergeNFAux]
    by_cases hm : s - ce ≤ md
    · rw [if_pos hm]
      have hchain3 : List.Chain' (fun a b : ℕ × ℕ => a.2 + 2 ≤ b.1) ((cs, e) :: rest) := by
        rw [List.chain'_cons'] at hchain2 ⊢
        exact ⟨hchain2.1, hchain2.2⟩
      have IH := ih cs e (by omega) hchain3 hwf2
      rcases List.mem_cons.mp hr with h | h
      · obtain ⟨g, hg, hg1, hg2⟩ := IH (cs, e) (List.mem_cons_self _ _)
        exact ⟨g, hg, by simp [h]; omega, by simp [h]; omega⟩
      · rcases List.mem_cons.mp h with h2 | h2
        · obtain ⟨g, hg, hg1, hg2⟩ := IH (cs, e) (List.mem_cons_self _ _)
          exact ⟨g, hg, by simp [h2]; omega, by simp [h2]; omega⟩
        · exact IH r (List.mem_cons_of_mem _ h2)
    · rw [if_neg hm]
      rcases List.mem_cons.mp hr with h | h
      · exact ⟨(cs, ce), List.mem_cons_self _ _, by simp [h], by simp [h]⟩
      · obtain ⟨g, hg, hg1, hg2⟩ := ih s e hse hchain2 hwf2 r h
        exact ⟨g, List.mem_cons_of_mem _ hg, hg1, hg2⟩

theorem mergeAux_fix (md ml : ℕ) :
    ∀ (l : List (ℕ × ℕ)) (s e : ℕ),
      List.Chain' (fun a b : ℕ × ℕ => a.2 + md + 1 ≤ b.1) ((s, e) :: l) →
      (∀ r ∈ (s, e) :: l, ml ≤ r.2 - r.1 + 1) →
      mergeAux md ml s e l = (s, e) :: l := by
  intro l
  induction l with
  | nil =>
    intro s e _ hlen
    rw [mergeAux, if_pos (hlen (s, e) (List.mem_cons_self _ _))]
  | cons se rest ih =>
    obtain ⟨s', e'⟩ := se
    intro s e hchain hlen
    rw [List.chain'_cons] at hchain
    obtain ⟨hgap, hchain2⟩ := hchain
    simp only at hgap
    rw [mergeAux, if_neg (by omega), if_pos (hlen (s, e) (List.mem_cons_self _ _))]
    rw [ih s' e' hchain2 (fun r hr => hlen r (List.mem_cons_of_mem _ hr))]

theorem call_regions_spec (scores : List (Option ℚ)) (threshold : ℚ)
    (minLength mergeDistance : ℕ) :
    (∀ r ∈ call_regions scores threshold minLength mergeDistance,
        r.1 ≤ r.2 ∧ minLength ≤ r.2 - r.1 + 1) ∧
    List.Chain' (fun a b : ℕ × ℕ =>
        a.2 + mergeDistance + 1 ≤ b.1 ∧ a.2 + 2 ≤ b.1)
      (call_regions scores threshold minLength mergeDistance) := by
  have hsorted := hitIdx_chain scores threshold
  rw [call_regions]
  cases hidx : hitIdx scores threshold with
  | nil => simp [runsOf, mergeFilter]
  | cons i rest =>
    rw [hidx] at hsorted
    obtain ⟨⟨e0, t, hsh, hie⟩, hcg, hwf⟩ := runsAux_spec rest i i le_rfl hsorted
    rw [runsOf, hsh, mergeFilter]
    have hchain : List.Chain' (fun a b : ℕ × ℕ => a.2 + 2 ≤ b.1) ((i, e0) :: t) := by
      rw [← hsh]; exact hcg
    have hwft : ∀ r ∈ t, r.1 ≤ r.2 := by
      intro r hr
      exact hwf r (by rw [hsh]; exact List.mem_cons_of_mem _ hr)
    obtain ⟨hmem, hchainOut⟩ := mergeAux_spec mergeDistance minLength t i e0 hie hchain hwft
    exact ⟨fun r hr => ⟨(hmem r hr).2.1, (hmem r hr).2.2⟩, hchainOut⟩

/-! ### Lemmas: slice assignment -/

theorem sliceAssignGo_getD {α : Type} (i j : ℕ) (f : ℕ → α) :
    ∀ (xs : List α) (p q : ℕ) (d : α),
      (sliceAssignGo i j f p xs).getD q d =
        if q < xs.length ∧ i ≤ p + q ∧ p + q < j then f (p + q) else xs.getD q d := by
  intro xs
  induction xs with
  | nil =>
    intro p q d
    simp [sliceAssignGo]
  | cons x xs ih =>
    intro p q d
    cases q with
    | zero =>
      simp only [sliceAssignGo, List.getD_cons_zero, List.length_cons, Nat.add_zero,
        Nat.zero_lt_succ, true_and]
    | succ q =>
      simp only [sliceAssignGo, List.getD_cons_succ, List.length_cons]
      rw [ih (p + 1) q d, show p + 1 + q = p + (q + 1) by omega]
      exact if_congr ⟨fun h => ⟨by omega, h.2.1, h.2.2⟩, fun h => ⟨by omega, h.2.1, h.2.2⟩⟩
        rfl rfl

theorem sliceAssign_getD {α : Type} (xs : List α) (i j : ℕ) (f : ℕ → α) (q : ℕ) (d : α) :
    (sliceAssign xs i j f).getD q d =
      if q < xs.length ∧ i ≤ q ∧ q < j then f q else xs.getD q d := by
  rw [sliceAssign, sliceAssignGo_getD]
  simp

theorem sliceAssignGo_length {α : Type} (i j : ℕ) (f : ℕ → α) :
    ∀ (xs : List α) (p : ℕ), (sliceAssignGo i j f p xs).length = xs.length := by
  intro xs
  induction xs with
  | nil => intro p; rfl
  | cons x xs ih => intro p; simp [sliceAssignGo, ih]

theorem sliceAssign_length {α : Type} (xs : List α) (i j : ℕ) (f : ℕ → α) :
    (sliceAssign xs i j f).length = xs.length :=
  sliceAssignGo_length i j f xs 0

theorem alignedRefDel_getD {α : Type} (nanRow : α) (ref : List α) (m n k : ℕ)
    (hn : ref.length = n) :
    (∀ i, m ≤ i → i < n - k →
      (alignedRefDel nanRow ref m n k).getD i nanRow = ref.getD (i + k) nanRow) ∧
    (∀ i, n - k ≤ i → i < n →
      (alignedRefDel nanRow ref m n k).getD i nanRow = nanRow) ∧
    (∀ i, i < m → m + k ≤ n →
      (alignedRefDel nanRow ref m n k).getD i nanRow = ref.getD i nanRow) := by
  refine ⟨?_, ?_, ?_⟩
  · intro i h1 h2
    simp only [alignedRefDel]
    rw [sliceAssign_getD, if_neg (by rw [sliceAssign_length, hn]; omega),
      sliceAssign_getD, if_pos (by rw [hn]; omega)]
  · intro i h1 h2
    simp only [alignedRefDel]
    rw [sliceAssign_getD, if_pos (by rw [sliceAssign_length, hn]; omega)]
  · intro i h1 h2
    simp only [alignedRefDel]
    rw [sliceAssign_getD, if_neg (by rw [sliceAssign_length, hn]; omega),
      sliceAssign_getD, if_neg (by omega)]

theorem alignedRefIns_getD {α : Type} (nanRow : α) (ref : List α) (m n k : ℕ)
    (hn : ref.length = n) (hmk : m + k ≤ n) :
    (∀ i, m + k ≤ i → i < n →
      (alignedRefIns nanRow ref m n k).getD i nanRow = ref.getD (i - k) nanRow) ∧
    (∀ i, m ≤ i → i < m + k →
      (alignedRefIns nanRow ref m n k).getD i nanRow = nanRow) := by
  refine ⟨?_, ?_⟩
  · intro i h1 h2
    simp only [alignedRefIns]
    rw [sliceAssign_getD, if_neg (by omega),
      sliceAssign_getD, if_pos (by rw [hn]; omega)]
  · intro i h1 h2
    simp only [alignedRefIns]
    rw [sliceAssign_getD, if_pos (by rw [sliceAssign_length, hn]; omega)]

theorem alignedRefIns_getD_before {α : Type} (nanRow : α) (ref : List α) (m n k : ℕ) :
    ∀ i, i < m → (alignedRefIns nanRow ref m n k).getD i nanRow = ref.getD i nanRow := by
  intro i h1
  simp only [alignedRefIns]
  rw [sliceAssign_getD, if_neg (by omega),
    sliceAssign_getD, if_neg (by omega)]

/-! ### Claim C1 -/

/-- C1 counterexample: the claim's worked example is wrong on the code.  On
scores `[0, 0.6, 0.7, 0, 0, 0.55, 0]` with `threshold = 0.5`,
`min_length = 1`, `merge_distance = 2`, `call_regions` returns
`[(1,2), (5,5)]`, not `[(1,5)]`: the runs `(1,2)` and `(5,5)` have
`s - cur_e = 3 > 2`, so they are not merged even though the gap
`5 - 2 - 1 = 2` equals `merge_distance`. -/
theorem c1_counterexample :
    call_regions [some 0, some (mkRat 6 10), some (mkRat 7 10), some 0, some 0, some (mkRat 55 100), some 0]
        (mkRat 1 2) 1 2 = [(1, 2), (5, 5)] ∧
    call_regions [some 0, some (mkRat 6 10), some (mkRat 7 10), some 0, some 0, some (mkRat 55 100), some 0]
        (mkRat 1 2) 1 2 ≠ [(1, 5)] := by
  decide

/-- C1 (amended): a following run `(s, e)` is merged into the running
region `(cs, ce)` exactly when `s - ce ≤ merge_distance`, i.e. when the
gap `s - ce - 1` is strictly smaller than `merge_distance`; a gap equal to
`merge_distance` closes the running region instead.  Consequently the
worked example `[0, 0.6, 0.7, 0, 0, 0.55, 0]` with `threshold = 0.5`,
`merge_distance = 2`, `min_length = 1` yields `[(1,2), (5,5)]`. -/
theorem c1_merge_boundary (md ml cs ce s e : ℕ) (h1 : cs ≤ ce) (h2 : ce + 2 ≤ s)
    (h3 : s ≤ e) (h4 : ml ≤ ce - cs + 1) (h5 : ml ≤ e - s + 1) :
    (s - ce - 1 < md → mergeAux md ml cs ce [(s, e)] = [(cs, e)]) ∧
    (md ≤ s - ce - 1 → mergeAux md ml cs ce [(s, e)] = [(cs, ce), (s, e)]) ∧
    call_regions [some 0, some (mkRat 6 10), some (mkRat 7 10), some 0, some 0, some (mkRat 55 100), some 0]
      (mkRat 1 2) 1 2 = [(1, 2), (5, 5)] := by
  refine ⟨?_, ?_, by decide⟩
  · intro h
    have hmerge : s - ce ≤ md := by omega
    have hlen : ml ≤ e - cs + 1 := by omega
    simp [mergeAux, hmerge, hlen]
  · intro h
    have hmerge : ¬ (s - ce ≤ md) := by omega
    simp [mergeAux, hmerge, h4, h5]

/-- Witness for C1: with `merge_distance = 2`, the run `(2,3)` at gap
`2 - 0 - 1 = 1 < 2` after the running region `(0,0)` is merged. -/
theorem c1_merge_boundary_witness :
    mergeAux 2 1 0 0 [(2, 3)] = [(0, 3)] ∧
    call_regions [some 0, some (mkRat 6 10), some (mkRat 7 10), some 0, some 0, some (mkRat 55 100), some 0]
      (mkRat 1 2) 1 2 = [(1, 2), (5, 5)] :=
  ⟨(c1_merge_boundary 2 1 0 0 2 3 (by decide) (by decide) (by decide) (by decide)
      (by decide)).1 (by decide),
   (c1_merge_boundary 2 1 0 0 2 3 (by decide) (by decide) (by decide) (by decide)
      (by decide)).2.2⟩

/-! ### Claim C2 -/

/-- C2 counterexample: on scores `[0.6, 0, 0, 0.6]` with `threshold = 0.5`,
`min_length = 1`, `merge_distance = 2`, `call_regions` returns
`[(0,0), (3,3)]`, whose single consecutive pair has gap
`3 - 0 - 1 = 2 = merge_distance`, violating the claimed strict inequality
`gap > merge_distance`. -/
theorem c2_counterexample :
    call_regions [some (mkRat 6 10), some 0, some 0, some (mkRat 6 10)] (mkRat 1 2) 1 2 = [(0, 0), (3, 3)] ∧
    ¬ List.Chain' (fun a b : ℕ × ℕ => 2 < b.1 - a.2 - 1)
        (call_regions [some (mkRat 6 10), some 0, some 0, some (mkRat 6 10)] (mkRat 1 2) 1 2) := by
  have h : call_regions [some (mkRat 6 10), some 0, some 0, some (mkRat 6 10)] (mkRat 1 2) 1 2
      = [(0, 0), (3, 3)] := by decide
  refine ⟨h, ?_⟩
  rw [h]
  intro hc
  rw [List.chain'_cons] at hc
  simp at hc

/-- C2 (amended): for every score array and positive threshold,
min_length and merge_distance, consecutive regions returned by
`call_regions` satisfy `region[i].end < region[i+1].start` and
`region[i+1].start - region[i].end - 1 ≥ merge_distance` (the gap can
equal `merge_distance`, so `≥` rather than the claimed `>`), and every
returned region has length `end - start + 1 ≥ min_length`. -/
theorem c2_region_invariants (scores : List (Option ℚ)) (threshold : ℚ)
    (minLength mergeDistance : ℕ) (hth : 0 < threshold) (hml : 0 < minLength)
    (hmd : 0 < mergeDistance) :
    List.Chain' (fun a b : ℕ × ℕ => a.2 < b.1 ∧ mergeDistance ≤ b.1 - a.2 - 1)
      (call_regions scores threshold minLength mergeDistance) ∧
    ∀ r ∈ call_regions scores threshold minLength mergeDistance,
      minLength ≤ r.2 - r.1 + 1 := by
  obtain ⟨hmem, hchain⟩ := call_regions_spec scores threshold minLength mergeDistance
  refine ⟨hchain.imp ?_, fun r hr => (hmem r hr).2⟩
  intro a b hab
  obtain ⟨hab1, hab2⟩ := hab
  exact ⟨by omega, by omega⟩

/-- Witness for C2 at a concrete input. -/
theorem c2_region_invariants_witness :
    List.Chain' (fun a b : ℕ × ℕ => a.2 < b.1 ∧ 1 ≤ b.1 - a.2 - 1)
      (call_regions [some (mkRat 6 10)] (mkRat 1 2) 1 1) ∧
    ∀ r ∈ call_regions [some (mkRat 6 10)] (mkRat 1 2) 1 1, 1 ≤ r.2 - r.1 + 1 :=
  c2_region_invariants [some (mkRat 6 10)] (mkRat 1 2) 1 1 (by decide) (by decide) (by decide)

/-! ### Claim C5 -/

/-- C5: the `min_length` filter acts only on closed, fully merged regions,
never on raw runs: `call_regions` equals the unfiltered merge sweep
followed by the length filter; every raw run is contained in some closed
(pre-filter) region, so a short run is retained exactly when the closed
region it merged into is long enough; and a closed region shorter than
`min_length` (in particular an unmergeable short run, which closes as its
own region) is discarded. -/
theorem c5_filter_after_merge (scores : List (Option ℚ)) (threshold : ℚ)
    (minLength mergeDistance : ℕ) :
    call_regions scores threshold minLength mergeDistance =
      (mergeNF mergeDistance (runsOf (hitIdx scores threshold))).filter
        (fun r => decide (minLength ≤ r.2 - r.1 + 1)) ∧
    (∀ r ∈ runsOf (hitIdx scores threshold),
      ∃ g ∈ mergeNF mergeDistance (runsOf (hitIdx scores threshold)),
        g.1 ≤ r.1 ∧ r.2 ≤ g.2) ∧
    (∀ g ∈ mergeNF mergeDistance (runsOf (hitIdx scores threshold)),
      g.2 - g.1 + 1 < minLength →
        g ∉ call_regions scores threshold minLength mergeDistance) := by
  have hsorted := hitIdx_chain scores threshold
  rcases hidx : hitIdx scores threshold with _ | ⟨i, rest⟩
  · refine ⟨?_, ?_, ?_⟩ <;> simp [call_regions, hidx, runsOf, mergeFilter, mergeNF]
  · rw [hidx] at hsorted
    obtain ⟨⟨e0, t, hsh, hie⟩, hcg, hwf⟩ := runsAux_spec rest i i le_rfl hsorted
    have hrw : runsOf (i :: rest) = (i, e0) :: t := hsh
    rw [hsh] at hcg hwf
    have hwft : ∀ r ∈ t, r.1 ≤ r.2 := fun r hr => hwf r (List.mem_cons_of_mem _ hr)
    have heq1 : call_regions scores threshold minLength mergeDistance =
        mergeAux mergeDistance minLength i e0 t := by
      rw [call_regions, hidx, hrw]
      rfl
    have heq2 : mergeNF mergeDistance (runsOf (i :: rest)) =
        mergeNFAux mergeDistance i e0 t := by
      rw [hrw]
      rfl
    have hfilter : call_regions scores threshold minLength mergeDistance =
        (mergeNF mergeDistance (runsOf (i :: rest))).filter
          (fun r => decide (minLength ≤ r.2 - r.1 + 1)) := by
      rw [heq1, heq2]
      exact mergeAux_eq_filter mergeDistance minLength t i e0
    refine ⟨hfilter, ?_, ?_⟩
    · intro r hr
      rw [hrw] at hr
      rw [heq2]
      exact mergeNFAux_contains mergeDistance t i e0 hie hcg hwft r hr
    · intro g hg hlen hgmem
      rw [hfilter] at hgmem
      have := (List.mem_filter.mp hgmem).2
      simp only [decide_eq_true_eq] at this
      omega

/-- Witness for C5: the run `(2,2)` (length 1 < min_length 2) merges with
`(0,0)` into the closed region `(0,2)` of length `3 ≥ 2`, so it is
retained. -/
theorem c5_filter_after_merge_witness :
    ∃ g ∈ mergeNF 2 (runsOf (hitIdx [some (mkRat 6 10), some 0, some (mkRat 6 10)] (mkRat 1 2))),
      g.1 ≤ 2 ∧ 2 ≤ g.2 :=
  (c5_filter_after_merge [some (mkRat 6 10), some 0, some (mkRat 6 10)] (mkRat 1 2) 2 2).2.1
    (2, 2) (by decide)

/-! ### Claim C6 -/

/-- C6: idempotence of the merge/filter stage.  Re-running the Region
Caller's merge-and-filter logic on the output of `call_regions`, treating
each output region's full span as a selected run, returns the same region
list unchanged: no pair of output regions can merge and none is filtered
out. -/
theorem c6_idempotent (scores : List (Option ℚ)) (threshold : ℚ)
    (minLength mergeDistance : ℕ) :
    mergeFilter mergeDistance minLength
        (call_regions scores threshold minLength mergeDistance) =
      call_regions scores threshold minLength mergeDistance := by
  obtain ⟨hmem, hchain⟩ := call_regions_spec scores threshold minLength mergeDistance
  rcases hR : call_regions scores threshold minLength mergeDistance with _ | ⟨⟨s, e⟩, rest⟩
  · rfl
  · rw [hR] at hmem hchain
    have hchain2 : List.Chain' (fun a b : ℕ × ℕ => a.2 + mergeDistance + 1 ≤ b.1)
        ((s, e) :: rest) := hchain.imp (fun a b h => h.1)
    exact mergeAux_fix mergeDistance minLength rest s e hchain2
      (fun r hr => (hmem r hr).2)

/-! ### Claim C7 -/

/-- C7: `compute_window_scores` clips the scan start up to `0` and the
scan end down to `n_samples`, and the returned array has exactly
`max(0, (clipped end - clipped start) - window_size + 1)` rows; when that
count is nonpositive it returns an empty array (with the channel count
preserved) rather than raising an error. -/
theorem c7_window_count (altVals refVals : Mat) (startIdx endIdx : ℤ)
    (windowSize : ℕ) (epsilon : ℚ) (hw : 1 ≤ windowSize) :
    (compute_window_scores altVals refVals startIdx endIdx windowSize epsilon).nBases =
      (min endIdx (altVals.nBases : ℤ) - max startIdx 0 - windowSize + 1).toNat ∧
    (compute_window_scores altVals refVals startIdx endIdx windowSize epsilon).nTracks =
      altVals.nTracks ∧
    (min endIdx (altVals.nBases : ℤ) - max startIdx 0 - windowSize + 1 ≤ 0 →
      (compute_window_scores altVals refVals startIdx endIdx windowSize epsilon).nBases
        = 0) := by
  rw [compute_window_scores]
  by_cases h : min endIdx (altVals.nBases : ℤ) - max startIdx 0 - windowSize + 1 ≤ 0
  · rw [if_pos h]
    exact ⟨by rw [Int.toNat_of_nonpos h], rfl, fun _ => rfl⟩
  · rw [if_neg h]
    exact ⟨rfl, rfl, fun hc => absurd hc h⟩

/-- Witness for C7: a 5-sample, 1-channel input scanned with
`start = -3`, `end = 10`, `window = 2` clips to `[0, 5)` and yields 4
windows. -/
theorem c7_window_count_witness :
    (compute_window_scores ⟨5, 1, fun _ _ => some 1⟩ ⟨5, 1, fun _ _ => some 1⟩
        (-3) 10 2 1).nBases = 4 :=
  ((c7_window_count ⟨5, 1, fun _ _ => some 1⟩ ⟨5, 1, fun _ _ => some 1⟩
      (-3) 10 2 1 (by decide)).1).trans (by decide)

/-! ### Claim C4 -/

/-- C4: because window sums are differences of cumulative sums, a NaN
sample at position `p` (in either input array, channel `c`) makes
`compute_window_scores` return a NaN score for every window whose span
includes `p` and also for every window starting after `p` — i.e. for
every window `j` with `p < clipped_start + window_size + j` — even when
that window's own span contains no NaN sample. -/
theorem c4_nan_propagation (altVals refVals : Mat) (startIdx endIdx : ℤ)
    (windowSize : ℕ) (epsilon : ℚ) (j c p : ℕ)
    (hj : j < (compute_window_scores altVals refVals startIdx endIdx windowSize
        epsilon).nBases)
    (hnan : altVals.val p c = none ∨ refVals.val p c = none)
    (hp1 : (max startIdx 0).toNat ≤ p)
    (hp2 : p < (max startIdx 0).toNat + windowSize + j) :
    (compute_window_scores altVals refVals startIdx endIdx windowSize epsilon).val j c
      = none := by
  rw [compute_window_scores] at hj ⊢
  by_cases h : min endIdx (altVals.nBases : ℤ) - max startIdx 0 - windowSize + 1 ≤ 0
  · rw [if_pos h] at hj
    exact absurd hj (by simp)
  · rw [if_neg h]
    show windowScoreEntry altVals refVals (max startIdx 0).toNat windowSize epsilon j c
      = none
    rw [windowScoreEntry]
    cases hnan with
    | inl ha =>
      rw [cumsum_eq_none altVals c p _ hp2 ha, osub_none_left, odiv_none_left,
        odiv_none_left, osub_none_left]
    | inr hr =>
      rw [cumsum_eq_none refVals c p _ hp2 hr, osub_none_left, odiv_none_left,
        oadd_none_left, odiv_none_right, osub_none_left]

/-- Witness for C4: with a NaN at sample 1, the window `[2, 3)` (which
contains no NaN) still scores NaN. -/
theorem c4_nan_propagation_witness :
    (compute_window_scores ⟨3, 1, fun p _ => if p = 1 then none else some 2⟩
        ⟨3, 1, fun _ _ => some 1⟩ 0 3 1 1).val 2 0 = none :=
  c4_nan_propagation ⟨3, 1, fun p _ => if p = 1 then none else some 2⟩
    ⟨3, 1, fun _ _ => some 1⟩ 0 3 1 1 2 0 1 (by decide) (Or.inl (by decide))
    (by decide) (by decide)

/-! ### Claim C3 -/

/-- C3 counterexample: the prefix-sum implementation does not equal the
naive per-window mean-ratio definition for all inputs.  With a NaN at
sample 1 of the alternate array, the window `[2, 3)` contains no NaN, so
the naive definition gives `1/(1+1) - 1 = -1/2`, but the implementation
returns NaN because both cumulative sums at the window boundaries pass
through the NaN sample. -/
theorem c3_counterexample :
    (compute_window_scores ⟨3, 1, fun p _ => if p = 1 then none else some 1⟩
        ⟨3, 1, fun _ _ => some 1⟩ 0 3 1 1).val 2 0 = none ∧
    naive_window_score ⟨3, 1, fun p _ => if p = 1 then none else some 1⟩
        ⟨3, 1, fun _ _ => some 1⟩ 0 1 1 2 0 = some (-(1/2)) ∧
    (compute_window_scores ⟨3, 1, fun p _ => if p = 1 then none else some 1⟩
        ⟨3, 1, fun _ _ => some 1⟩ 0 3 1 1).val 2 0 ≠
      naive_window_score ⟨3, 1, fun p _ => if p = 1 then none else some 1⟩
        ⟨3, 1, fun _ _ => some 1⟩ 0 1 1 2 0 := by
  have h1 : (compute_window_scores ⟨3, 1, fun p _ => if p = 1 then none else some 1⟩
      ⟨3, 1, fun _ _ => some 1⟩ 0 3 1 1).val 2 0 = none := by decide
  have h2 : naive_window_score ⟨3, 1, fun p _ => if p = 1 then none else some 1⟩
      ⟨3, 1, fun _ _ => some 1⟩ 0 1 1 2 0 = some (-(1/2)) := by
    norm_num [naive_window_score, windowSum, oadd, osub, odiv]
  refine ⟨h1, h2, ?_⟩
  rw [h1, h2]
  simp

/-- C3 (amended): for inputs whose sample values are all numbers (no NaN
anywhere in the arrays — the condition the counterexample forces), every
entry of the array returned by `compute_window_scores` equals the naive
per-window mean-ratio score: the mean of the alternate signal over the
`w`-wide window starting at clipped start + `j`, divided by the
corresponding reference-window mean plus epsilon, minus `1`. -/
theorem c3_prefix_sum_refinement (altVals refVals : Mat) (startIdx endIdx : ℤ)
    (windowSize : ℕ) (epsilon : ℚ) (hw : 1 ≤ windowSize)
    (hsome : ∀ p c2, p < altVals.nBases →
      (∃ qa, altVals.val p c2 = some qa) ∧ (∃ qr, refVals.val p c2 = some qr)) :
    ∀ j c,
      j < (compute_window_scores altVals refVals startIdx endIdx windowSize
          epsilon).nBases →
      (compute_window_scores altVals refVals startIdx endIdx windowSize epsilon).val j c
        = naive_window_score altVals refVals startIdx windowSize epsilon j c := by
  intro j c hj
  rw [compute_window_scores] at hj ⊢
  by_cases h : min endIdx (altVals.nBases : ℤ) - max startIdx 0 - windowSize + 1 ≤ 0
  · rw [if_pos h] at hj
    exact absurd hj (by simp)
  · rw [if_neg h] at hj ⊢
    show windowScoreEntry altVals refVals (max startIdx 0).toNat windowSize epsilon j c
      = naive_window_score altVals refVals startIdx windowSize epsilon j c
    have hi : (((max startIdx 0).toNat : ℤ)) = max startIdx 0 :=
      Int.toNat_of_nonneg (le_max_right _ _)
    have hjz : (j : ℤ) < min endIdx (altVals.nBases : ℤ) - max startIdx 0 - windowSize + 1 := by
      have := hj
      simp only [Mat.mk.injEq] at this
      exact (Int.lt_toNat.mp this)
    have hmin : min endIdx (altVals.nBases : ℤ) ≤ (altVals.nBases : ℤ) :=
      min_le_right _ _
    have hbound : (max startIdx 0).toNat + j + windowSize ≤ altVals.nBases := by
      omega
    have hA : ∀ p, p < ((max startIdx 0).toNat + j) + windowSize →
        altVals.val p c = some ((altVals.val p c).getD 0) := by
      intro p hp
      obtain ⟨qa, hqa⟩ := (hsome p c (by omega)).1
      rw [hqa]
      rfl
    have hR : ∀ p, p < ((max startIdx 0).toNat + j) + windowSize →
        refVals.val p c = some ((refVals.val p c).getD 0) := by
      intro p hp
      obtain ⟨qr, hqr⟩ := (hsome p c (by omega)).2
      rw [hqr]
      rfl
    rw [windowScoreEntry, naive_window_score]
    rw [show (max startIdx 0).toNat + windowSize + j
        = ((max startIdx 0).toNat + j) + windowSize by omega]
    rw [osub_cumsum_eq_windowSum altVals c (fun p => (altVals.val p c).getD 0)
        windowSize ((max startIdx 0).toNat + j) hA,
      osub_cumsum_eq_windowSum refVals c (fun p => (refVals.val p c).getD 0)
        windowSize ((max startIdx 0).toNat + j) hR]

/-- Witness for C3: on a NaN-free input, one concrete implementation entry
equals the naive score. -/
theorem c3_prefix_sum_refinement_witness :
    (compute_window_scores ⟨2, 1, fun _ _ => some 3⟩ ⟨2, 1, fun _ _ => some 1⟩
        0 2 1 1).val 0 0 =
      naive_window_score ⟨2, 1, fun _ _ => some 3⟩ ⟨2, 1, fun _ _ => some 1⟩ 0 1 1 0 0 :=
  c3_prefix_sum_refinement ⟨2, 1, fun _ _ => some 3⟩ ⟨2, 1, fun _ _ => some 1⟩
    0 2 1 1 (by decide) (fun p c2 hp => ⟨⟨3, rfl⟩, ⟨1, rfl⟩⟩) 0 0 (by decide)

/-! ### Claim C8 -/

/-- C8: indel alignment.  For a deletion (`length_alter > 0`) the aligner
shifts reference rows left by `length_alter` starting at the mutation
offset `m` and fills the last `length_alter` positions of the interval
with the no-value row; for an insertion (`length_alter < 0`,
`k = |length_alter|`, inserted span within the interval) it shifts
reference rows right by `k` starting at `m` and fills the `k` positions
starting at `m` with the no-value row; for a substitution
(`length_alter = 0`) it changes nothing. -/
theorem c8_indel_alignment {α : Type} (nanRow : α) (vout : VariantOutput α)
    (m n : ℕ) (d : ℤ) (hn : vout.reference.length = n) :
    (0 < d →
      (∀ i, m ≤ i → i < n - d.toNat →
        (align_reference_for_indel nanRow vout m n d).reference.getD i nanRow =
          vout.reference.getD (i + d.toNat) nanRow) ∧
      (∀ i, n - d.toNat ≤ i → i < n →
        (align_reference_for_indel nanRow vout m n d).reference.getD i nanRow
          = nanRow)) ∧
    (d < 0 → m + (-d).toNat ≤ n →
      (∀ i, m + (-d).toNat ≤ i → i < n →
        (align_reference_for_indel nanRow vout m n d).reference.getD i nanRow =
          vout.reference.getD (i - (-d).toNat) nanRow) ∧
      (∀ i, m ≤ i → i < m + (-d).toNat →
        (align_reference_for_indel nanRow vout m n d).reference.getD i nanRow
          = nanRow)) ∧
    (d = 0 → align_reference_for_indel nanRow vout m n d = vout) := by
  refine ⟨?_, ?_, ?_⟩
  · intro hd
    rw [align_reference_for_indel, if_pos hd]
    obtain ⟨hshift, hfill, _⟩ :=
      alignedRefDel_getD nanRow vout.reference m n d.toNat hn
    exact ⟨hshift, hfill⟩
  · intro hd hmk
    rw [align_reference_for_indel, if_neg (by omega), if_pos hd]
    exact alignedRefIns_getD nanRow vout.reference m n (-d).toNat hn hmk
  · intro hd
    rw [align_reference_for_indel, if_neg (by omega), if_neg (by omega)]

/-- Witness for C8: a 2-base deletion at offset `1` of a 5-row reference
shifts row 3 into position 1 and fills position 3 with the no-value
marker; a substitution changes nothing. -/
theorem c8_indel_alignment_witness :
    (align_reference_for_indel (0 : ℤ) ⟨[10, 20, 30, 40, 50], [1, 2, 3]⟩
        1 5 2).reference.getD 1 0 = [10, 20, 30, 40, 50].getD 3 0 ∧
    (align_reference_for_indel (0 : ℤ) ⟨[10, 20, 30, 40, 50], [1, 2, 3]⟩
        1 5 2).reference.getD 3 0 = 0 ∧
    align_reference_for_indel (0 : ℤ) ⟨[10, 20, 30, 40, 50], [1, 2, 3]⟩ 1 5 0 =
      ⟨[10, 20, 30, 40, 50], [1, 2, 3]⟩ :=
  ⟨((c8_indel_alignment 0 ⟨[10, 20, 30, 40, 50], [1, 2, 3]⟩ 1 5 2 (by decide)).1
      (by decide)).1 1 (by decide) (by decide),
   ((c8_indel_alignment 0 ⟨[10, 20, 30, 40, 50], [1, 2, 3]⟩ 1 5 2 (by decide)).1
      (by decide)).2 3 (by decide) (by decide),
   (c8_indel_alignment 0 ⟨[10, 20, 30, 40, 50], [1, 2, 3]⟩ 1 5 0 (by decide)).2.2 rfl⟩

/-! ### Claim C9 -/

/-- C9: frame property of the aligner.  `align_reference_for_indel`
modifies only the reference array — the alternate array is returned
untouched — and (provided a deletion's deleted span lies within the
interval) every reference position strictly before the mutation offset
keeps its original value. -/
theorem c9_aligner_frame {α : Type} (nanRow : α) (vout : VariantOutput α)
    (m n : ℕ) (d : ℤ) (hn : vout.reference.length = n)
    (hdel : 0 < d → m + d.toNat ≤ n) :
    (align_reference_for_indel nanRow vout m n d).alternate = vout.alternate ∧
    ∀ i, i < m →
      (align_reference_for_indel nanRow vout m n d).reference.getD i nanRow =
        vout.reference.getD i nanRow := by
  by_cases hd : 0 < d
  · rw [align_reference_for_indel, if_pos hd]
    refine ⟨rfl, fun i hi => ?_⟩
    exact (alignedRefDel_getD nanRow vout.reference m n d.toNat hn).2.2 i hi (hdel hd)
  · by_cases hneg : d < 0
    · rw [align_reference_for_indel, if_neg hd, if_pos hneg]
      refine ⟨rfl, fun i hi => ?_⟩
      exact alignedRefIns_getD_before nanRow vout.reference m n (-d).toNat i hi
    · rw [align_reference_for_indel, if_neg hd, if_neg hneg]
      exact ⟨rfl, fun i _ => rfl⟩

/-- Witness for C9: for a 1-base deletion at offset `2`, the alternate
array is untouched and reference position `0` keeps its value. -/
theorem c9_aligner_frame_witness :
    (align_reference_for_indel (0 : ℤ) ⟨[1, 2, 3, 4, 5], [6, 7, 8, 9, 10]⟩
        2 5 1).alternate = [6, 7, 8, 9, 10] ∧
    (align_reference_for_indel (0 : ℤ) ⟨[1, 2, 3, 4, 5], [6, 7, 8, 9, 10]⟩
        2 5 1).reference.getD 0 0 = 1 :=
  ⟨(c9_aligner_frame 0 ⟨[1, 2, 3, 4, 5], [6, 7, 8, 9, 10]⟩ 2 5 1 (by decide)
      (fun _ => by decide)).1,
   ((c9_aligner_frame 0 ⟨[1, 2, 3, 4, 5], [6, 7, 8, 9, 10]⟩ 2 5 1 (by decide)
      (fun _ => by decide)).2 0 (by decide)).trans (by decide)⟩

/-! ### Claim C10 -/

/-- C10: for every channel for which `call_regions` returns an empty
region list, the emission loop produces exactly one row for that
(mutation, context, channel): significance flag false, region count `0`,
region index `-1`, undefined (NaN) region bounds, whole-score-array
NaN-aware mean, max and min, and direction `none` — the channel is never
omitted. -/
theorem c10_nonsignificant_row (scores : List (Option ℚ)) (threshold : ℚ)
    (minLength mergeDistance : ℕ) (startIdx centerIdx pos : ℤ) (windowSize : ℕ)
    (h : call_regions scores threshold minLength mergeDistance = []) :
    channelRows scores threshold minLength mergeDistance startIdx centerIdx pos
        windowSize =
      [{ isSignificant := false, nRegions := 0, regionIndex := -1,
         relStart := none, relEnd := none, absStart := none, absEnd := none,
         meanScore := nanmean scores, maxScore := nanmax scores,
         minScore := nanmin scores, direction := "none" }] ∧
    (channelRows scores threshold minLength mergeDistance startIdx centerIdx pos
        windowSize).length = 1 := by
  have heq : channelRows scores threshold minLength mergeDistance startIdx centerIdx
      pos windowSize =
      [{ isSignificant := false, nRegions := 0, regionIndex := -1,
         relStart := none, relEnd := none, absStart := none, absEnd := none,
         meanScore := nanmean scores, maxScore := nanmax scores,
         minScore := nanmin scores, direction := "none" }] := by
    simp [channelRows, h]
  exact ⟨heq, by rw [heq]; rfl⟩

/-- Witness for C10: scores all below threshold give exactly the single
non-significant row. -/
theorem c10_nonsignificant_row_witness :
    channelRows [some (mkRat 1 10), some 0] (mkRat 1 2) 1 2 0 0 0 5 =
      [{ isSignificant := false, nRegions := 0, regionIndex := -1,
         relStart := none, relEnd := none, absStart := none, absEnd := none,
         meanScore := nanmean [some (mkRat 1 10), some 0],
         maxScore := nanmax [some (mkRat 1 10), some 0],
         minScore := nanmin [some (mkRat 1 10), some 0], direction := "none" }] :=
  (c10_nonsignificant_row [some (mkRat 1 10), some 0] (mkRat 1 2) 1 2 0 0 0 5
    (by decide)).1

end AlphaScan
